import Mathlib

/-
Verification of the anchor-matching and instance-padding core of the YOLO
data-preprocessing pipeline (`yolo/dataloaders/preprocessing_ops.py`).

The embedding models tensors along their leading dimension as lists:
a batch of ground-truth boxes is a `List Box`, the anchor catalog a
`List (ℚ × ℚ)`, the IoU matrix a `List (List ℚ)` (rows = boxes, columns =
anchors), and the per-box anchor assignment a `List Int` of width 5 with
sentinel `-1`.  Floating-point arithmetic is idealised as exact rational
arithmetic.
-/

namespace YoloSpec

/-- A bounding box in YOLO center format `(center_x, center_y, width, height)`. -/
structure Box where
  x : ℚ
  y : ℚ
  w : ℚ
  h : ℚ
deriving DecidableEq

/-- Modelled from the spec: `compute_iou` is imported from `yolo.utils.iou_utils`,
whose source file is not among the provided sources.  Per the spec (section 4.1),
the overlap of two center-format boxes is
`intersection / (area1 + area2 - intersection)`, where the intersection extent in
each dimension is the overlap of the two center-format intervals (clamped at 0),
and a degenerate zero union yields 0 by convention (explicit division guard). -/
def compute_iou (b1 b2 : Box) : ℚ :=
  let ix := min (b1.x + b1.w / 2) (b2.x + b2.w / 2) - max (b1.x - b1.w / 2) (b2.x - b2.w / 2)
  let iy := min (b1.y + b1.h / 2) (b2.y + b2.h / 2) - max (b1.y - b1.h / 2) (b2.y - b2.h / 2)
  let inter := max ix 0 * max iy 0
  let uni := b1.w * b1.h + b2.w * b2.h - inter
  if uni = 0 then 0 else inter / uni

/-- The fixed acceptance threshold `0.213` used by `get_best_anchor`. -/
def anchorThreshold : ℚ := 213 / 1000

/-- The IoU matrix built inside `get_best_anchor`: anchors are rescaled by the
reference resolution, then each anchor is placed at the center of the ground-truth
box it is compared against (`anchors = K.concatenate([anchor_xy, anchors], axis=1)`),
and `compute_iou` is applied pairwise.  Row `i` lists the IoU of box `i` with every
anchor of the catalog, in catalog order. -/
def iouMatrix (y_true : List Box) (anchors : List (ℚ × ℚ)) (width height : ℚ) :
    List (List ℚ) :=
  y_true.map (fun b =>
    anchors.map (fun a => compute_iou b ⟨b.x, b.y, a.1 / width, a.2 / height⟩))

/-- Number of anchors of one IoU row whose overlap strictly exceeds the threshold
(`gt_mask = tf.cast(iou_raw > 0.213, ...)` summed along the anchor axis). -/
def acceptCount (r : List ℚ) : Nat :=
  r.countP (fun v => decide (anchorThreshold < v))

/-- The batch-wide rank width `num_k`: the maximum accepted count over all boxes
(`tf.reduce_max(tf.reduce_sum(...))`), floored at 1 (`if num_k <= 0: num_k = 1`). -/
def numK (rows : List (List ℚ)) : Nat :=
  if (rows.map acceptCount).foldr max 0 = 0 then 1
  else (rows.map acceptCount).foldr max 0

/-- Comparison used for ranking `(anchor index, IoU)` pairs: descending by IoU.
`tf.math.top_k` is stable (equal values keep the lower index first), which a stable
sort over the index-ordered enumeration reproduces. -/
def rankRel (p q : Nat × ℚ) : Prop := q.2 ≤ p.2

instance : DecidableRel rankRel :=
  fun p q => inferInstanceAs (Decidable (q.2 ≤ p.2))

instance : IsTotal (Nat × ℚ) rankRel :=
  ⟨fun a b => le_total b.2 a.2⟩

instance : IsTrans (Nat × ℚ) rankRel :=
  ⟨fun a b c hab hbc => le_trans hbc hab⟩

/-- One IoU row ranked as `tf.math.top_k(..., sorted=True)` ranks it: all
`(anchor index, IoU)` pairs in descending IoU order, ties broken by lower index
(insertion sort is stable, like `top_k`). -/
def rankRow (r : List ℚ) : List (Nat × ℚ) :=
  List.insertionSort rankRel r.enum

/-- The acceptance test on a ranked `(anchor index, IoU)` pair
(`ind_mask = tf.cast(values > 0.213, ...)`). -/
def acceptPair (q : Nat × ℚ) : Bool := decide (anchorThreshold < q.2)

/-- The threshold mask applied to ranked slots 1 onward:
`((indexes[..., 1:] + 1) * ind_mask[..., 1:]) - 1` keeps the anchor index when its
IoU strictly exceeds the threshold and writes the sentinel `-1` otherwise. -/
def maskSlot (q : Nat × ℚ) : Int :=
  if anchorThreshold < q.2 then (q.1 : Int) else -1

/-- The ranked row before width normalization: slot 0 is the top-ranked anchor
unconditionally (`indexes[..., 0]`), slots 1 onward are threshold-masked
(`tf.concat([K.expand_dims(indexes[..., 0], ...), ((indexes[..., 1:] + 1) * ind_mask[..., 1:]) - 1], ...)`). -/
def rawRow (k : Nat) (r : List ℚ) : List Int :=
  match (rankRow r).take k with
  | [] => []
  | p :: rest => (p.1 : Int) :: rest.map maskSlot

/-- The 5-slot assignment row for one box, given the batch-wide width `k`: the raw
ranked row is padded with `-1` columns while `num_k < 5` and finally cut to its
first 5 entries (`iou_index[..., :5]`). -/
def assignRow (k : Nat) (r : List ℚ) : List Int :=
  (rawRow k r ++ List.replicate (5 - k) (-1)).take 5

/-- `get_best_anchor(y_true, anchors, width, height)` of
`yolo/dataloaders/preprocessing_ops.py`: build the IoU matrix of boxes against the
rescaled, recentered anchors, derive the batch-wide `num_k`, and rank every box row
with that same `num_k` into a 5-slot assignment.  `tf.math.top_k` raises a runtime
error when `k` exceeds the number of columns, modelled as `none`. -/
def get_best_anchor (y_true : List Box) (anchors : List (ℚ × ℚ)) (width height : ℚ) :
    Option (List (List Int)) :=
  if anchors.length < numK (iouMatrix y_true anchors width height) then none
  else
    some ((iouMatrix y_true anchors width height).map
      (assignRow (numK (iouMatrix y_true anchors width height))))

/-- `pad_max_instances(value, instances, pad_value)` of
`yolo/dataloaders/preprocessing_ops.py`, on the leading dimension: slice to
`instances` rows when longer, otherwise append `instances - dim1` rows of the pad
value. -/
def pad_max_instances {α : Type} (value : List α) (instances : Nat) (pad_value : α) :
    List α :=
  if instances < value.length then value.take instances
  else value ++ List.replicate (instances - value.length) pad_value

/-! ### Helper lemmas about `pad_max_instances` -/

theorem pad_max_instances_length {α : Type} (value : List α) (instances : Nat)
    (pad_value : α) : (pad_max_instances value instances pad_value).length = instances := by
  unfold pad_max_instances
  split
  · simp
    omega
  · simp
    omega

theorem pad_max_instances_of_length_eq {α : Type} {value : List α} {instances : Nat}
    (pad_value : α) (hlen : value.length = instances) :
    pad_max_instances value instances pad_value = value := by
  unfold pad_max_instances
  rw [if_neg (by omega)]
  simp [hlen]

/-! ### Claim theorems about `pad_max_instances` -/

/-- C6: `pad_max_instances` returns a sequence of length exactly `instances`; a
longer input keeps its first `instances` items unchanged in order, a shorter input
is followed by exactly `instances - length` copies of the pad value. -/
theorem C6_pad_or_truncate_contract {α : Type} (value : List α) (instances : Nat)
    (pad_value : α) (hpos : 0 < instances) :
    (pad_max_instances value instances pad_value).length = instances ∧
    (instances ≤ value.length →
      pad_max_instances value instances pad_value = value.take instances) ∧
    (value.length ≤ instances →
      pad_max_instances value instances pad_value =
        value ++ List.replicate (instances - value.length) pad_value) := by
  refine ⟨pad_max_instances_length value instances pad_value, ?_, ?_⟩
  · intro hle
    unfold pad_max_instances
    split
    · rfl
    · have : value.length = instances := by omega
      simp [this]
  · intro hle
    unfold pad_max_instances
    rw [if_neg (by omega)]

/-- Witness for C6 at a concrete input. -/
theorem C6_pad_or_truncate_contract_witness :
    (pad_max_instances ([7, 9] : List Int) 4 0).length = 4 ∧
    (4 ≤ ([7, 9] : List Int).length →
      pad_max_instances ([7, 9] : List Int) 4 0 = ([7, 9] : List Int).take 4) ∧
    (([7, 9] : List Int).length ≤ 4 →
      pad_max_instances ([7, 9] : List Int) 4 0 =
        [7, 9] ++ List.replicate (4 - ([7, 9] : List Int).length) 0) :=
  C6_pad_or_truncate_contract [7, 9] 4 0 (by decide)

/-- C9: `pad_max_instances` leaves an input of length exactly `instances`
unchanged, and applying it twice with the same arguments equals applying it once. -/
theorem C9_pad_idempotent {α : Type} (value : List α) (instances : Nat)
    (pad_value : α) :
    (value.length = instances → pad_max_instances value instances pad_value = value) ∧
    pad_max_instances (pad_max_instances value instances pad_value) instances pad_value =
      pad_max_instances value instances pad_value := by
  refine ⟨fun hlen => pad_max_instances_of_length_eq pad_value hlen, ?_⟩
  exact pad_max_instances_of_length_eq pad_value
    (pad_max_instances_length value instances pad_value)

/-- Witness for C9 at a concrete input. -/
theorem C9_pad_idempotent_witness :
    pad_max_instances ([3, 7] : List Int) 2 0 = [3, 7] ∧
    pad_max_instances (pad_max_instances ([3, 7] : List Int) 2 0) 2 0 =
      pad_max_instances ([3, 7] : List Int) 2 0 :=
  ⟨(C9_pad_idempotent [3, 7] 2 0).1 (by decide), (C9_pad_idempotent [3, 7] 2 0).2⟩

/-- C10: padding a sequence up to `maxCount` and then applying the function again
with the original length as the cap recovers the original sequence. -/
theorem C10_pad_roundtrip {α : Type} (value : List α) (maxCount : Nat)
    (pad_value : α) (hle : value.length ≤ maxCount) :
    pad_max_instances (pad_max_instances value maxCount pad_value) value.length
      pad_value = value := by
  have hinner : pad_max_instances value maxCount pad_value =
      value ++ List.replicate (maxCount - value.length) pad_value := by
    unfold pad_max_instances
    rw [if_neg (by omega)]
  rw [hinner]
  unfold pad_max_instances
  rcases Nat.lt_or_ge value.length maxCount with hlt | hge
  · rw [if_pos (by simp; omega)]
    rw [List.take_append_eq_append_take, List.take_of_length_le (le_refl _),
      Nat.sub_self, List.take_zero, List.append_nil]
  · have heq : value.length = maxCount := by omega
    rw [if_neg (by simp; omega)]
    simp [heq]

/-- Witness for C10 at a concrete input. -/
theorem C10_pad_roundtrip_witness :
    pad_max_instances (pad_max_instances ([5, 11] : List Int) 4 0)
      ([5, 11] : List Int).length 0 = [5, 11] :=
  C10_pad_roundtrip [5, 11] 4 0 (by decide)

/-! ### Helper lemmas about the ranking step -/

theorem rankRow_perm (r : List ℚ) : (rankRow r).Perm r.enum :=
  List.perm_insertionSort rankRel r.enum

theorem rankRow_length (r : List ℚ) : (rankRow r).length = r.length := by
  rw [(rankRow_perm r).length_eq, List.enum_length]

theorem rankRow_sorted (r : List ℚ) :
    (rankRow r).Pairwise (fun p q : Nat × ℚ => q.2 ≤ p.2) := by
  have h := List.sorted_insertionSort rankRel r.enum
  exact h.imp (fun hpq => hpq)

theorem mem_enum_getD {r : List ℚ} {p : Nat × ℚ} (hp : p ∈ r.enum) :
    p.1 < r.length ∧ r.getD p.1 0 = p.2 := by
  rcases List.mem_iff_getElem.1 hp with ⟨i, hi, hei⟩
  have hir : i < r.length := by rwa [List.enum_length] at hi
  rw [List.getElem_enum] at hei
  rw [← hei]
  exact ⟨hir, List.getD_eq_getElem r 0 hir⟩

theorem getElem_mem_enum {r : List ℚ} {i : Nat} (hi : i < r.length) :
    (i, r[i]) ∈ r.enum := by
  have hi2 : i < r.enum.length := by rwa [List.enum_length]
  have h := List.getElem_enum r i hi2
  rw [← h]
  exact List.getElem_mem hi2

theorem rankRow_mem {r : List ℚ} {p : Nat × ℚ} (hp : p ∈ rankRow r) :
    p.1 < r.length ∧ r.getD p.1 0 = p.2 :=
  mem_enum_getD ((rankRow_perm r).mem_iff.1 hp)

theorem countP_enumFrom (P : ℚ → Bool) (r : List ℚ) (n : Nat) :
    (List.enumFrom n r).countP (fun q => P q.2) = r.countP P := by
  induction r generalizing n with
  | nil => rfl
  | cons a t ih =>
    rw [List.enumFrom_cons, List.countP_cons, List.countP_cons, ih]

theorem countP_rankRow (r : List ℚ) :
    (rankRow r).countP acceptPair = acceptCount r := by
  rw [List.Perm.countP_eq acceptPair (rankRow_perm r), List.enum_eq_enumFrom]
  exact countP_enumFrom (fun v => decide (anchorThreshold < v)) r 0

/-- In a list sorted by descending IoU, the accepted pairs form the `takeWhile`
prefix and everything after it is rejected. -/
theorem sorted_accept_split (l : List (Nat × ℚ))
    (hs : l.Pairwise (fun p q : Nat × ℚ => q.2 ≤ p.2)) :
    l.countP acceptPair = (l.takeWhile acceptPair).length ∧
      ∀ q ∈ l.dropWhile acceptPair, ¬ anchorThreshold < q.2 := by
  induction l with
  | nil => exact ⟨rfl, by simp⟩
  | cons p t ih =>
    rw [List.pairwise_cons] at hs
    obtain ⟨hpt, ht⟩ := hs
    by_cases hP : anchorThreshold < p.2
    · have hPb : acceptPair p = true := by simp [acceptPair, hP]
      obtain ⟨ih1, ih2⟩ := ih ht
      rw [List.countP_cons, List.takeWhile_cons_of_pos hPb,
        List.dropWhile_cons_of_pos hPb]
      refine ⟨?_, ih2⟩
      simp [hPb, ih1]
    · have hPb : ¬ acceptPair p = true := by simp [acceptPair, hP]
      have hall : ∀ q ∈ p :: t, ¬ anchorThreshold < q.2 := by
        intro q hq
        rcases List.mem_cons.1 hq with hq | hq
        · rw [hq]; exact hP
        · intro hc
          exact hP (lt_of_lt_of_le hc (hpt q hq))
      rw [List.takeWhile_cons_of_neg hPb, List.dropWhile_cons_of_neg hPb]
      refine ⟨?_, hall⟩
      rw [List.length_nil, List.countP_eq_zero]
      intro q hq
      simpa [acceptPair] using hall q hq

/-- Taking at least as many ranked pairs as are accepted keeps every accepted pair. -/
theorem countP_take_sorted (s : List (Nat × ℚ)) (k : Nat)
    (hs : s.Pairwise (fun p q : Nat × ℚ => q.2 ≤ p.2))
    (hk : s.countP acceptPair ≤ k) :
    (s.take k).countP acceptPair = s.countP acceptPair := by
  induction s generalizing k with
  | nil => simp
  | cons p t ih =>
    rw [List.pairwise_cons] at hs
    obtain ⟨hpt, ht⟩ := hs
    cases k with
    | zero =>
      simp only [List.take_zero, List.countP_nil]
      omega
    | succ n =>
      rw [List.take_succ_cons, List.countP_cons, List.countP_cons]
      by_cases hP : acceptPair p = true
      · have hkt : t.countP acceptPair ≤ n := by
          rw [List.countP_cons] at hk
          simp [hP] at hk
          omega
        rw [ih n ht hkt]
      · have htz : t.countP acceptPair = 0 := by
          rw [List.countP_eq_zero]
          intro q hq
          simp only [acceptPair, decide_eq_true_eq] at hP ⊢
          intro hc
          exact hP (lt_of_lt_of_le hc (hpt q hq))
        have : (t.take n).countP acceptPair = 0 := by
          have hle := List.Sublist.countP_le acceptPair (List.take_sublist n t)
          omega
        rw [this, htz]

theorem le_foldr_max {l : List Nat} {x : Nat} (hx : x ∈ l) : x ≤ l.foldr max 0 := by
  induction l with
  | nil => cases hx
  | cons a t ih =>
    rcases List.mem_cons.1 hx with hx | hx
    · rw [hx, List.foldr_cons]
      exact le_max_left _ _
    · rw [List.foldr_cons]
      exact le_trans (ih hx) (le_max_right _ _)

theorem foldr_max_le {l : List Nat} {c : Nat} (h : ∀ x ∈ l, x ≤ c) :
    l.foldr max 0 ≤ c := by
  induction l with
  | nil => exact Nat.zero_le c
  | cons a t ih =>
    rw [List.foldr_cons]
    exact max_le (h a (List.mem_cons_self a t))
      (ih (fun x hx => h x (List.mem_cons_of_mem a hx)))

theorem map_eq_replicate_of_forall {β : Type} {l : List β} {f : β → Int} {c : Int}
    (h : ∀ x ∈ l, f x = c) : l.map f = List.replicate l.length c := by
  induction l with
  | nil => rfl
  | cons a t ih =>
    rw [List.map_cons, List.length_cons, List.replicate_succ,
      h a (List.mem_cons_self a t), ih (fun x hx => h x (List.mem_cons_of_mem a hx))]

/-- Structure of the masked ranked row built from a sorted pair list `p :: rest`:
slot 0 is kept unconditionally, the accepted anchors form a prefix, and everything
after them is the sentinel `-1`. -/
theorem masked_row_structure (p : Nat × ℚ) (rest : List (Nat × ℚ))
    (hs : (p :: rest).Pairwise (fun u v : Nat × ℚ => v.2 ≤ u.2)) :
    ∃ kept : List (Nat × ℚ),
      (p.1 : Int) :: rest.map maskSlot =
        kept.map (fun q => (q.1 : Int)) ++
          List.replicate ((p :: rest).length - max ((p :: rest).countP acceptPair) 1)
            (-1) ∧
      kept.length = max ((p :: rest).countP acceptPair) 1 ∧
      (∀ q ∈ kept, q ∈ p :: rest) ∧
      (∀ q ∈ kept.tail, anchorThreshold < q.2) ∧
      (kept.map (fun q => q.2)).Pairwise (fun u v : ℚ => v ≤ u) := by
  have hsplit := sorted_accept_split (p :: rest) hs
  by_cases hacc0 : (p :: rest).countP acceptPair = 0
  · have hfail : ∀ q ∈ p :: rest, ¬ acceptPair q = true := List.countP_eq_zero.1 hacc0
    refine ⟨[p], ?_, ?_, ?_, ?_, ?_⟩
    · have hmap : rest.map maskSlot = List.replicate rest.length (-1) :=
        map_eq_replicate_of_forall (fun q hq => by
          have hf := hfail q (List.mem_cons_of_mem p hq)
          simp only [acceptPair, decide_eq_true_eq] at hf
          simp [maskSlot, hf])
      rw [hmap, hacc0]
      simp
    · rw [hacc0]
      rfl
    · intro q hq
      rw [List.mem_singleton.1 hq]
      exact List.mem_cons_self p rest
    · intro q hq
      cases hq
    · simp
  · have hap : acceptPair p = true := by
      by_contra hap
      rw [List.takeWhile_cons_of_neg hap, List.length_nil] at hsplit
      exact hacc0 hsplit.1
    have htwcons : (p :: rest).takeWhile acceptPair =
        p :: rest.takeWhile acceptPair := List.takeWhile_cons_of_pos hap
    have hdwcons : (p :: rest).dropWhile acceptPair =
        rest.dropWhile acceptPair := List.dropWhile_cons_of_pos hap
    have hcount : (p :: rest).countP acceptPair =
        (rest.takeWhile acceptPair).length + 1 := by
      rw [hsplit.1, htwcons, List.length_cons]
    have hrsplit : rest.takeWhile acceptPair ++ rest.dropWhile acceptPair = rest :=
      List.takeWhile_append_dropWhile acceptPair rest
    refine ⟨p :: rest.takeWhile acceptPair, ?_, ?_, ?_, ?_, ?_⟩
    · have hmaptw : (rest.takeWhile acceptPair).map maskSlot =
          (rest.takeWhile acceptPair).map (fun q => (q.1 : Int)) :=
        List.map_congr_left (fun q hq => by
          have ha := List.mem_takeWhile_imp hq
          simp only [acceptPair, decide_eq_true_eq] at ha
          simp [maskSlot, ha])
      have hmapdw : (rest.dropWhile acceptPair).map maskSlot =
          List.replicate (rest.dropWhile acceptPair).length (-1) :=
        map_eq_replicate_of_forall (fun q hq => by
          have hf := hsplit.2 q (by rw [hdwcons]; exact hq)
          simp [maskSlot, hf])
      have hlenrep : (p :: rest).length - max ((p :: rest).countP acceptPair) 1 =
          (rest.dropWhile acceptPair).length := by
        have h1 : (rest.takeWhile acceptPair).length +
            (rest.dropWhile acceptPair).length = rest.length := by
          rw [← List.length_append, hrsplit]
        rw [hcount, Nat.max_eq_left (by omega), List.length_cons]
        omega
      rw [hlenrep]
      conv_lhs => rw [← hrsplit]
      rw [List.map_append, hmaptw, hmapdw, List.map_cons, List.cons_append]
    · rw [hcount, Nat.max_eq_left (by omega), List.length_cons]
    · intro q hq
      rcases List.mem_cons.1 hq with hq | hq
      · rw [hq]; exact List.mem_cons_self p rest
      · exact List.mem_cons_of_mem p
          (List.Sublist.mem hq (List.takeWhile_sublist acceptPair))
    · intro q hq
      have ha := List.mem_takeWhile_imp hq
      simpa [acceptPair] using ha
    · rw [List.pairwise_map]
      exact List.Pairwise.sublist
        (List.Sublist.cons₂ p (List.takeWhile_sublist acceptPair)) hs

theorem rawRow_take_eq {k : Nat} {r : List ℚ} {p : Nat × ℚ} {rest : List (Nat × ℚ)}
    (h : (rankRow r).take k = p :: rest) :
    rawRow k r = (p.1 : Int) :: rest.map maskSlot := by
  unfold rawRow
  rw [h]

theorem rawRow_nil {k : Nat} {r : List ℚ} (h : (rankRow r).take k = []) :
    rawRow k r = [] := by
  unfold rawRow
  rw [h]

theorem rawRow_length {k : Nat} {r : List ℚ} (h2 : k ≤ r.length) :
    (rawRow k r).length = k := by
  have hlen : ((rankRow r).take k).length = k := by
    rw [List.length_take, rankRow_length]
    omega
  rcases htake : (rankRow r).take k with _ | ⟨p, rest⟩
  · rw [rawRow_nil htake]
    rw [htake] at hlen
    simpa using hlen
  · rw [rawRow_take_eq htake]
    rw [htake] at hlen
    simp only [List.length_cons, List.length_map] at hlen ⊢
    exact hlen

theorem take_k_sorted (k : Nat) (r : List ℚ) :
    ((rankRow r).take k).Pairwise (fun u v : Nat × ℚ => v.2 ≤ u.2) :=
  List.Pairwise.sublist (List.take_sublist k (rankRow r)) (rankRow_sorted r)

theorem take_k_countP (k : Nat) (r : List ℚ) (h3 : acceptCount r ≤ k) :
    ((rankRow r).take k).countP acceptPair = acceptCount r := by
  rw [countP_take_sorted (rankRow r) k (rankRow_sorted r)
    (by rw [countP_rankRow]; exact h3)]
  exact countP_rankRow r

/-- Full structure of an assignment row, under the facts that hold inside
`get_best_anchor` (`1 ≤ k ≤ A` and the row accepts at most `k` anchors), when the
row accepts fewer than 5 anchors. -/
theorem assignRow_structure (k : Nat) (r : List ℚ) (h1 : 1 ≤ k) (h2 : k ≤ r.length)
    (h3 : acceptCount r ≤ k) (h5 : acceptCount r < 5) :
    ∃ kept : List Nat,
      assignRow k r = kept.map (fun j : Nat => (j : Int)) ++
        List.replicate (5 - max (acceptCount r) 1) (-1) ∧
      kept.length = max (acceptCount r) 1 ∧
      (∀ j ∈ kept, j < r.length) ∧
      (∀ j ∈ kept.tail, anchorThreshold < r.getD j 0) ∧
      (kept.map (fun j => r.getD j 0)).Pairwise (fun u v : ℚ => v ≤ u) := by
  have hmlen : ((rankRow r).take k).length = k := by
    rw [List.length_take, rankRow_length]
    omega
  have hmne : (rankRow r).take k ≠ [] := by
    intro hnil
    rw [hnil] at hmlen
    simp at hmlen
    omega
  obtain ⟨p, rest, hcons⟩ := List.exists_cons_of_ne_nil hmne
  have hmsorted := take_k_sorted k r
  rw [hcons] at hmsorted
  have hmcount := take_k_countP k r h3
  rw [hcons] at hmcount
  obtain ⟨kept, hkeq, hklen, hkmem, hktail, hkpair⟩ :=
    masked_row_structure p rest hmsorted
  rw [hmcount] at hkeq hklen
  have hlcons : (p :: rest).length = k := by rw [← hcons]; exact hmlen
  rw [hlcons] at hkeq
  have hmemrank : ∀ q ∈ kept, q ∈ rankRow r := fun q hq =>
    List.mem_of_mem_take (by rw [hcons]; exact hkmem q hq)
  have hK1le : max (acceptCount r) 1 ≤ k := Nat.max_le.2 ⟨h3, h1⟩
  have hK1lt5 : max (acceptCount r) 1 < 5 := Nat.max_lt.2 ⟨h5, by omega⟩
  refine ⟨kept.map (fun q => q.1), ?_, ?_, ?_, ?_, ?_⟩
  · unfold assignRow
    rw [rawRow_take_eq hcons, hkeq, List.append_assoc, ← List.replicate_add,
      List.take_append_eq_append_take,
      List.take_of_length_le (by rw [List.length_map, hklen]; omega),
      List.length_map, hklen, List.take_replicate, List.map_map]
    have hmin : min (5 - max (acceptCount r) 1)
        (k - max (acceptCount r) 1 + (5 - k)) = 5 - max (acceptCount r) 1 := by
      omega
    rw [hmin]
    rfl
  · rw [List.length_map, hklen]
  · intro j hj
    rcases List.mem_map.1 hj with ⟨q, hq, hqj⟩
    rw [← hqj]
    exact (rankRow_mem (hmemrank q hq)).1
  · intro j hj
    rw [← List.map_tail] at hj
    rcases List.mem_map.1 hj with ⟨q, hq, hqj⟩
    have hqk : q ∈ kept := List.mem_of_mem_tail hq
    have hval := (rankRow_mem (hmemrank q hqk)).2
    rw [← hqj, hval]
    exact hktail q hq
  · rw [List.map_map]
    have : kept.map ((fun j => r.getD j 0) ∘ fun q => q.1) =
        kept.map (fun q => q.2) :=
      List.map_congr_left (fun q hq => (rankRow_mem (hmemrank q hq)).2)
    rw [this]
    exact hkpair

/-- Slot 0 of an assignment row is the index of a maximal-IoU anchor. -/
theorem assignRow_head (k : Nat) (r : List ℚ) (h1 : 1 ≤ k) (h2 : k ≤ r.length) :
    ∃ j : Nat, (assignRow k r).head? = some ((j : Int)) ∧ j < r.length ∧
      ∀ v ∈ r, v ≤ r.getD j 0 := by
  have hslen : (rankRow r).length = r.length := rankRow_length r
  have hsne : rankRow r ≠ [] := by
    intro hnil
    rw [hnil] at hslen
    simp at hslen
    omega
  obtain ⟨s0, st, hscons⟩ := List.exists_cons_of_ne_nil hsne
  obtain ⟨n, rfl⟩ : ∃ n, k = n + 1 := ⟨k - 1, by omega⟩
  have htake : (rankRow r).take (n + 1) = s0 :: st.take n := by
    rw [hscons, List.take_succ_cons]
  have hs0 : s0 ∈ rankRow r := by rw [hscons]; exact List.mem_cons_self s0 st
  refine ⟨s0.1, ?_, (rankRow_mem hs0).1, ?_⟩
  · unfold assignRow
    rw [rawRow_take_eq htake]
    rfl
  · intro v hv
    rcases List.mem_iff_getElem.1 hv with ⟨i, hi, hiv⟩
    have henum : (i, v) ∈ r.enum := by rw [← hiv]; exact getElem_mem_enum hi
    have hmem : (i, v) ∈ rankRow r := (rankRow_perm r).mem_iff.2 henum
    rw [hscons] at hmem
    rw [(rankRow_mem hs0).2]
    rcases List.mem_cons.1 hmem with hmem | hmem
    · exact le_of_eq (congrArg Prod.snd hmem)
    · have hp := rankRow_sorted r
      rw [hscons, List.pairwise_cons] at hp
      exact hp.1 (i, v) hmem

/-- Every entry of an assignment row is the sentinel `-1` or a valid anchor index. -/
theorem assignRow_entries {k : Nat} {r : List ℚ} {x : Int} (hx : x ∈ assignRow k r) :
    x = -1 ∨ (0 ≤ x ∧ x < (r.length : Int)) := by
  unfold assignRow at hx
  have hx2 := List.mem_of_mem_take hx
  rcases List.mem_append.1 hx2 with hraw | hpad
  · rcases htake : (rankRow r).take k with _ | ⟨p, rest⟩
    · rw [rawRow_nil htake] at hraw
      cases hraw
    · rw [rawRow_take_eq htake] at hraw
      rcases List.mem_cons.1 hraw with hraw | hraw
      · right
        have hp : p ∈ rankRow r := List.mem_of_mem_take
          (by rw [htake]; exact List.mem_cons_self p rest)
        have hplen := (rankRow_mem hp).1
        refine ⟨by rw [hraw]; exact Int.ofNat_nonneg p.1, ?_⟩
        rw [hraw]
        exact_mod_cast hplen
      · rcases List.mem_map.1 hraw with ⟨q, hq, hqx⟩
        unfold maskSlot at hqx
        split at hqx
        · right
          have hqr : q ∈ rankRow r := List.mem_of_mem_take
            (by rw [htake]; exact List.mem_cons_of_mem p hq)
          have hqlen := (rankRow_mem hqr).1
          refine ⟨by rw [← hqx]; exact Int.ofNat_nonneg q.1, ?_⟩
          rw [← hqx]
          exact_mod_cast hqlen
        · left
          exact hqx.symm
  · left
    exact List.eq_of_mem_replicate hpad

/-- Every assignment row has width exactly 5. -/
theorem assignRow_length {k : Nat} {r : List ℚ} (h2 : k ≤ r.length) :
    (assignRow k r).length = 5 := by
  unfold assignRow
  rw [List.length_take, List.length_append, rawRow_length h2, List.length_replicate]
  omega

theorem getD_take_lt {α : Type} (l : List α) (n i : Nat) (d : α) (h : i < n) :
    (l.take n).getD i d = l.getD i d := by
  rcases Nat.lt_or_ge i l.length with hl | hl
  · have h1 : i < (l.take n).length := by
      rw [List.length_take]
      omega
    rw [List.getD_eq_getElem _ _ h1, List.getD_eq_getElem _ _ hl]
    exact List.getElem_take l
  · have h1 : (l.take n).length ≤ i := by
      rw [List.length_take]
      omega
    rw [List.getD_eq_default _ _ h1, List.getD_eq_default _ _ hl]

/-- Slots from position `k` on are the sentinel `-1` (the `-1` column padding). -/
theorem assignRow_pad {k : Nat} {r : List ℚ} (h2 : k ≤ r.length) (i : Nat)
    (hki : k ≤ i) (hi5 : i < 5) : (assignRow k r).getD i 0 = -1 := by
  have hrawlen : (rawRow k r).length = k := rawRow_length h2
  unfold assignRow
  rw [getD_take_lt _ _ _ _ hi5]
  have h1 : i < (rawRow k r ++ List.replicate (5 - k) (-1)).length := by
    rw [List.length_append, hrawlen, List.length_replicate]
    omega
  rw [List.getD_eq_getElem _ _ h1,
    List.getElem_append_right (by rw [hrawlen]; omega)]
  exact List.getElem_replicate _ _

/-! ### Helper lemmas about `get_best_anchor` -/

theorem get_best_anchor_eq_some {y : List Box} {a : List (ℚ × ℚ)} {w h : ℚ}
    {rows : List (List Int)} (hr : get_best_anchor y a w h = some rows) :
    numK (iouMatrix y a w h) ≤ a.length ∧
    rows = (iouMatrix y a w h).map (assignRow (numK (iouMatrix y a w h))) := by
  unfold get_best_anchor at hr
  split at hr
  · cases hr
  · next hguard => exact ⟨by omega, (Option.some.inj hr).symm⟩

theorem iouMatrix_row_length {y : List Box} {a : List (ℚ × ℚ)} {w h : ℚ}
    {r : List ℚ} (hr : r ∈ iouMatrix y a w h) : r.length = a.length := by
  unfold iouMatrix at hr
  rcases List.mem_map.1 hr with ⟨b, hb, hbr⟩
  rw [← hbr, List.length_map]

theorem numK_pos (rows : List (List ℚ)) : 1 ≤ numK rows := by
  unfold numK
  split
  · omega
  · next hm => omega

theorem acceptCount_le_numK {rows : List (List ℚ)} {r : List ℚ} (hr : r ∈ rows) :
    acceptCount r ≤ numK rows := by
  have hm : acceptCount r ≤ (rows.map acceptCount).foldr max 0 :=
    le_foldr_max (List.mem_map_of_mem acceptCount hr)
  unfold numK
  split <;> omega

theorem numK_le_length (y : List Box) (a : List (ℚ × ℚ)) (w h : ℚ) (ha : a ≠ []) :
    numK (iouMatrix y a w h) ≤ a.length := by
  have hl : 1 ≤ a.length := List.length_pos.2 ha
  have hfold : ((iouMatrix y a w h).map acceptCount).foldr max 0 ≤ a.length := by
    apply foldr_max_le
    intro x hx
    rcases List.mem_map.1 hx with ⟨r, hrm, hrx⟩
    rw [← hrx]
    calc acceptCount r ≤ r.length := List.countP_le_length _
      _ = a.length := iouMatrix_row_length hrm
  unfold numK
  split <;> omega

/-- `get_best_anchor` never raises the modelled `top_k` error on a non-empty
catalog: its result is always `some`. -/
theorem get_best_anchor_isSome (y : List Box) (a : List (ℚ × ℚ)) (w h : ℚ)
    (ha : a ≠ []) :
    get_best_anchor y a w h =
      some ((iouMatrix y a w h).map (assignRow (numK (iouMatrix y a w h)))) := by
  unfold get_best_anchor
  rw [if_neg (by have := numK_le_length y a w h ha; omega)]

/-! ### Helper lemmas about the IoU of boxes sharing a center -/

/-- The IoU of two boxes sharing the same center depends only on the two shapes:
the center cancels out of both intersection extents. -/
theorem compute_iou_same_center (x y w0 h0 w2 h2 : ℚ) :
    compute_iou ⟨x, y, w0, h0⟩ ⟨x, y, w2, h2⟩ =
      (if w0 * h0 + w2 * h2 - max (min w0 w2) 0 * max (min h0 h2) 0 = 0 then 0
        else max (min w0 w2) 0 * max (min h0 h2) 0 /
          (w0 * h0 + w2 * h2 - max (min w0 w2) 0 * max (min h0 h2) 0)) := by
  unfold compute_iou
  have hx2 : min (x + w0 / 2) (x + w2 / 2) - max (x - w0 / 2) (x - w2 / 2)
      = min w0 w2 := by
    rw [min_add_add_left, max_sub_sub_left,
      min_div_div_right (by norm_num : (0:ℚ) ≤ 2) w0 w2]
    ring
  have hy2 : min (y + h0 / 2) (y + h2 / 2) - max (y - h0 / 2) (y - h2 / 2)
      = min h0 h2 := by
    rw [min_add_add_left, max_sub_sub_left,
      min_div_div_right (by norm_num : (0:ℚ) ≤ 2) h0 h2]
    ring
  simp only
  rw [hx2, hy2]

/-- Two boxes of equal width and height produce equal IoU values against any anchor
shape placed at their respective centers. -/
theorem compute_iou_center_free (b1 b2 : Box) (hw : b1.w = b2.w) (hh : b1.h = b2.h)
    (w2 h2 : ℚ) :
    compute_iou b1 ⟨b1.x, b1.y, w2, h2⟩ = compute_iou b2 ⟨b2.x, b2.y, w2, h2⟩ := by
  have h1 : compute_iou b1 ⟨b1.x, b1.y, w2, h2⟩ =
      compute_iou ⟨b1.x, b1.y, b1.w, b1.h⟩ ⟨b1.x, b1.y, w2, h2⟩ := rfl
  have h2b : compute_iou b2 ⟨b2.x, b2.y, w2, h2⟩ =
      compute_iou ⟨b2.x, b2.y, b2.w, b2.h⟩ ⟨b2.x, b2.y, w2, h2⟩ := rfl
  rw [h1, h2b, compute_iou_same_center, compute_iou_same_center, hw, hh]

/-- The whole IoU matrix depends only on the widths and heights of the boxes. -/
theorem iouMatrix_wh_only {y1 y2 : List Box} (a : List (ℚ × ℚ)) (w h : ℚ)
    (hwh : y1.map (fun b => (b.w, b.h)) = y2.map (fun b => (b.w, b.h))) :
    iouMatrix y1 a w h = iouMatrix y2 a w h := by
  unfold iouMatrix
  induction y1 generalizing y2 with
  | nil =>
    cases y2 with
    | nil => rfl
    | cons b2 t2 => simp at hwh
  | cons b1 t1 ih =>
    cases y2 with
    | nil => simp at hwh
    | cons b2 t2 =>
      simp only [List.map_cons, List.cons.injEq] at hwh
      obtain ⟨hb, ht⟩ := hwh
      have hw12 : b1.w = b2.w := congrArg Prod.fst hb
      have hh12 : b1.h = b2.h := congrArg Prod.snd hb
      rw [List.map_cons, List.map_cons, ih ht]
      congr 1
      exact List.map_congr_left (fun q hq =>
        compute_iou_center_free b1 b2 hw12 hh12 (q.1 / w) (q.2 / h))

/-! ### Claim theorems about `get_best_anchor` -/

/-- C1 (amended): for a non-empty anchor catalog `get_best_anchor` always returns
a result (the modelled runtime error occurs only for an empty catalog); every
returned assignment has exactly 5 slots, and when the batch width `k` is below 5
the slots from position `k` on are the sentinel `-1`.  When `k` exceeds 5 the
ranked row is silently cut to its first 5 entries rather than raising a runtime
error (see the counterexample). -/
theorem C1_five_slot_normalization (y : List Box) (a : List (ℚ × ℚ)) (w h : ℚ)
    (ha : a ≠ []) :
    ∃ rows, get_best_anchor y a w h = some rows ∧
      (∀ row ∈ rows, row.length = 5) ∧
      (∀ row ∈ rows, ∀ i : Nat, numK (iouMatrix y a w h) ≤ i → i < 5 →
        row.getD i 0 = -1) := by
  refine ⟨_, get_best_anchor_isSome y a w h ha, ?_, ?_⟩
  · intro row hrow
    rcases List.mem_map.1 hrow with ⟨r, hr, hrw⟩
    have hrl : r.length = a.length := iouMatrix_row_length hr
    rw [← hrw]
    exact assignRow_length (by rw [hrl]; exact numK_le_length y a w h ha)
  · intro row hrow i hki hi5
    rcases List.mem_map.1 hrow with ⟨r, hr, hrw⟩
    have hrl : r.length = a.length := iouMatrix_row_length hr
    rw [← hrw]
    exact assignRow_pad (by rw [hrl]; exact numK_le_length y a w h ha) i hki hi5

/-- Witness for C1 (amended) at a concrete input. -/
theorem C1_five_slot_normalization_witness :
    ∃ rows, get_best_anchor [⟨1/2, 1/2, 1/10, 1/10⟩] [(1/10, 1/10)] 1 1 =
        some rows ∧
      (∀ row ∈ rows, row.length = 5) ∧
      (∀ row ∈ rows, ∀ i : Nat,
        numK (iouMatrix [⟨1/2, 1/2, 1/10, 1/10⟩] [(1/10, 1/10)] 1 1) ≤ i →
        i < 5 → row.getD i 0 = -1) :=
  C1_five_slot_normalization [⟨1/2, 1/2, 1/10, 1/10⟩] [(1/10, 1/10)] 1 1
    (List.cons_ne_nil _ _)

/-- C1 counterexample: with six anchors of exactly the box's shape, six anchors
exceed the threshold, so the batch width is `k = 6 > 5`; `get_best_anchor`
nevertheless silently returns the first five ranked indices — a value, not a
runtime error. -/
theorem C1_overflow_counterexample :
    5 < numK (iouMatrix [⟨1/2, 1/2, 1/10, 1/10⟩]
      [(1/10, 1/10), (1/10, 1/10), (1/10, 1/10), (1/10, 1/10), (1/10, 1/10),
        (1/10, 1/10)] 1 1) ∧
    get_best_anchor [⟨1/2, 1/2, 1/10, 1/10⟩]
      [(1/10, 1/10), (1/10, 1/10), (1/10, 1/10), (1/10, 1/10), (1/10, 1/10),
        (1/10, 1/10)] 1 1 = some [[0, 1, 2, 3, 4]] := by
  constructor <;>
    norm_num [get_best_anchor, iouMatrix, compute_iou, numK, acceptCount,
      anchorThreshold, assignRow, rawRow, maskSlot, rankRow, rankRel,
      List.insertionSort, List.orderedInsert, List.enum, List.enumFrom,
      List.countP, List.countP.go, List.replicate]

/-- C2: for a non-empty box list and non-empty catalog, slot 0 of every returned
assignment holds a valid (non-sentinel) anchor index whose IoU is maximal for
that box — also when every overlap is at or below the threshold. -/
theorem C2_slot0_best_anchor (y : List Box) (a : List (ℚ × ℚ)) (w h : ℚ)
    (hy : y ≠ []) (ha : a ≠ []) :
    ∃ rows, get_best_anchor y a w h = some rows ∧ rows.length = y.length ∧
      ∀ i : Nat, i < y.length → ∃ j : Nat,
        (rows.getD i []).head? = some ((j : Int)) ∧ j < a.length ∧
        ∀ v ∈ (iouMatrix y a w h).getD i [],
          v ≤ ((iouMatrix y a w h).getD i []).getD j 0 := by
  have hmlen : (iouMatrix y a w h).length = y.length := by
    unfold iouMatrix
    rw [List.length_map]
  refine ⟨_, get_best_anchor_isSome y a w h ha, by rw [List.length_map, hmlen], ?_⟩
  intro i hiy
  have him : i < (iouMatrix y a w h).length := by omega
  have hrowsi : (((iouMatrix y a w h).map
      (assignRow (numK (iouMatrix y a w h)))).getD i []) =
      assignRow (numK (iouMatrix y a w h)) ((iouMatrix y a w h).getD i []) := by
    rw [List.getD_eq_getElem _ _ (by rw [List.length_map]; exact him),
      List.getElem_map, List.getD_eq_getElem _ _ him]
  rw [hrowsi]
  have hrmem : (iouMatrix y a w h).getD i [] ∈ iouMatrix y a w h := by
    rw [List.getD_eq_getElem _ _ him]
    exact List.getElem_mem him
  have hrlen : ((iouMatrix y a w h).getD i []).length = a.length :=
    iouMatrix_row_length hrmem
  obtain ⟨j, hhead, hj, hmax⟩ := assignRow_head (numK (iouMatrix y a w h)) _
    (numK_pos _) (by rw [hrlen]; exact numK_le_length y a w h ha)
  rw [hrlen] at hj
  exact ⟨j, hhead, hj, hmax⟩

/-- Witness for C2 at a concrete input. -/
theorem C2_slot0_best_anchor_witness :
    ∃ rows, get_best_anchor [⟨1/2, 1/2, 1/10, 1/10⟩] [(9/10, 9/10), (8/10, 8/10)]
        1 1 = some rows ∧
      rows.length = ([⟨1/2, 1/2, 1/10, 1/10⟩] : List Box).length ∧
      ∀ i : Nat, i < ([⟨1/2, 1/2, 1/10, 1/10⟩] : List Box).length → ∃ j : Nat,
        (rows.getD i []).head? = some ((j : Int)) ∧
        j < ([(9/10, 9/10), (8/10, 8/10)] : List (ℚ × ℚ)).length ∧
        ∀ v ∈ (iouMatrix [⟨1/2, 1/2, 1/10, 1/10⟩] [(9/10, 9/10), (8/10, 8/10)]
            1 1).getD i [],
          v ≤ ((iouMatrix [⟨1/2, 1/2, 1/10, 1/10⟩] [(9/10, 9/10), (8/10, 8/10)]
            1 1).getD i []).getD j 0 :=
  C2_slot0_best_anchor [⟨1/2, 1/2, 1/10, 1/10⟩] [(9/10, 9/10), (8/10, 8/10)] 1 1
    (List.cons_ne_nil _ _) (List.cons_ne_nil _ _)

/-- C3: the rank width `k` is computed once for the whole set of boxes as the
maximum over boxes of the number of anchors with IoU strictly above `0.213`,
floored at 1, and every box row of the same call is ranked with that same `k`. -/
theorem C3_batchwide_k (y : List Box) (a : List (ℚ × ℚ)) (w h : ℚ)
    (rows : List (List Int)) (hrows : get_best_anchor y a w h = some rows) :
    numK (iouMatrix y a w h) =
      max 1 (((iouMatrix y a w h).map
        (fun r => (r.filter (fun v => decide ((213 : ℚ) / 1000 < v))).length)).foldr
        max 0) ∧
    rows = (iouMatrix y a w h).map (assignRow (numK (iouMatrix y a w h))) := by
  refine ⟨?_, (get_best_anchor_eq_some hrows).2⟩
  have hfilter : ∀ r : List ℚ,
      (r.filter (fun v => decide ((213 : ℚ) / 1000 < v))).length = acceptCount r := by
    intro r
    rw [← List.countP_eq_length_filter]
    rfl
  simp only [hfilter]
  unfold numK
  split
  · next h0 =>
    rw [h0]
    rfl
  · next h0 =>
    have h1 : 1 ≤ ((iouMatrix y a w h).map acceptCount).foldr max 0 := by omega
    rw [Nat.max_eq_right h1]

/-- Witness for C3 at a concrete input. -/
theorem C3_batchwide_k_witness :
    numK (iouMatrix [⟨1/2, 1/2, 1/10, 1/10⟩] [(1/10, 1/10)] 1 1) =
      max 1 (((iouMatrix [⟨1/2, 1/2, 1/10, 1/10⟩] [(1/10, 1/10)] 1 1).map
        (fun r => (r.filter (fun v => decide ((213 : ℚ) / 1000 < v))).length)).foldr
        max 0) ∧
    (iouMatrix [⟨1/2, 1/2, 1/10, 1/10⟩] [(1/10, 1/10)] 1 1).map
        (assignRow (numK (iouMatrix [⟨1/2, 1/2, 1/10, 1/10⟩] [(1/10, 1/10)] 1 1))) =
      (iouMatrix [⟨1/2, 1/2, 1/10, 1/10⟩] [(1/10, 1/10)] 1 1).map
        (assignRow (numK (iouMatrix [⟨1/2, 1/2, 1/10, 1/10⟩] [(1/10, 1/10)] 1 1))) :=
  C3_batchwide_k [⟨1/2, 1/2, 1/10, 1/10⟩] [(1/10, 1/10)] 1 1 _
    (get_best_anchor_isSome [⟨1/2, 1/2, 1/10, 1/10⟩] [(1/10, 1/10)] 1 1
      (List.cons_ne_nil _ _))

/-- C4 (amended): for every box of the call whose above-threshold anchor count
`k_accepted` is below 5, the assignment row is a prefix of `max(k_accepted, 1)`
anchor indices followed by sentinel `-1` slots; slots 1 onward hold an anchor
index only when that anchor's IoU strictly exceeds `0.213`, in weakly descending
IoU order; and the number of non-sentinel slots equals `max(k_accepted, 1)` —
not `min(k_accepted + 1, 5)`, because the unconditional slot-0 anchor is itself
one of the accepted anchors whenever `k_accepted ≥ 1`. -/
theorem C4_slot_structure (y : List Box) (a : List (ℚ × ℚ)) (w h : ℚ)
    (rows : List (List Int)) (hrows : get_best_anchor y a w h = some rows)
    (i : Nat) (hi : i < y.length)
    (hacc : acceptCount ((iouMatrix y a w h).getD i []) < 5) :
    ∃ kept : List Nat,
      rows.getD i [] = kept.map (fun j : Nat => (j : Int)) ++
        List.replicate (5 - max (acceptCount ((iouMatrix y a w h).getD i [])) 1)
          (-1) ∧
      kept.length = max (acceptCount ((iouMatrix y a w h).getD i [])) 1 ∧
      (∀ j ∈ kept.tail,
        anchorThreshold < ((iouMatrix y a w h).getD i []).getD j 0) ∧
      (kept.map (fun j => ((iouMatrix y a w h).getD i []).getD j 0)).Pairwise
        (fun u v : ℚ => v ≤ u) ∧
      (rows.getD i []).countP (fun x => decide (x ≠ -1)) =
        max (acceptCount ((iouMatrix y a w h).getD i [])) 1 := by
  obtain ⟨hk, hrw⟩ := get_best_anchor_eq_some hrows
  have hmlen : (iouMatrix y a w h).length = y.length := by
    unfold iouMatrix
    rw [List.length_map]
  have him : i < (iouMatrix y a w h).length := by omega
  have hrowsi : rows.getD i [] =
      assignRow (numK (iouMatrix y a w h)) ((iouMatrix y a w h).getD i []) := by
    rw [hrw, List.getD_eq_getElem _ _ (by rw [List.length_map]; exact him),
      List.getElem_map, List.getD_eq_getElem _ _ him]
  have hrmem : (iouMatrix y a w h).getD i [] ∈ iouMatrix y a w h := by
    rw [List.getD_eq_getElem _ _ him]
    exact List.getElem_mem him
  have hrlen : ((iouMatrix y a w h).getD i []).length = a.length :=
    iouMatrix_row_length hrmem
  obtain ⟨kept, hkeq, hklen, hkb, hktail, hkpair⟩ :=
    assignRow_structure (numK (iouMatrix y a w h)) ((iouMatrix y a w h).getD i [])
      (numK_pos _) (by rw [hrlen]; exact hk) (acceptCount_le_numK hrmem) hacc
  refine ⟨kept, by rw [hrowsi]; exact hkeq, hklen, hktail, hkpair, ?_⟩
  rw [hrowsi, hkeq, List.countP_append]
  have h1 : (kept.map (fun j : Nat => (j : Int))).countP
      (fun x => decide (x ≠ -1)) = (kept.map (fun j : Nat => (j : Int))).length :=
    List.countP_eq_length.2 (fun x hx => by
      rcases List.mem_map.1 hx with ⟨j, hj, hjx⟩
      rw [← hjx]
      simp only [decide_eq_true_eq]
      omega)
  have h2 : (List.replicate
      (5 - max (acceptCount ((iouMatrix y a w h).getD i [])) 1) (-1 : Int)).countP
      (fun x => decide (x ≠ -1)) = 0 :=
    List.countP_eq_zero.2 (fun x hx => by
      rw [List.eq_of_mem_replicate hx]
      simp)
  rw [h1, h2, List.length_map, hklen]
  omega

/-- Witness for C4 (amended) at a concrete input. -/
theorem C4_slot_structure_witness :
    ∃ kept : List Nat,
      (((iouMatrix [⟨1/2, 1/2, 1/10, 1/10⟩] [(1/10, 1/10), (1/10, 1/20), (1/2, 1/2)]
          1 1).map (assignRow (numK (iouMatrix [⟨1/2, 1/2, 1/10, 1/10⟩]
            [(1/10, 1/10), (1/10, 1/20), (1/2, 1/2)] 1 1)))).getD 0 []) =
        kept.map (fun j : Nat => (j : Int)) ++
        List.replicate (5 - max (acceptCount ((iouMatrix [⟨1/2, 1/2, 1/10, 1/10⟩]
          [(1/10, 1/10), (1/10, 1/20), (1/2, 1/2)] 1 1).getD 0 [])) 1) (-1) ∧
      kept.length = max (acceptCount ((iouMatrix [⟨1/2, 1/2, 1/10, 1/10⟩]
        [(1/10, 1/10), (1/10, 1/20), (1/2, 1/2)] 1 1).getD 0 [])) 1 ∧
      (∀ j ∈ kept.tail,
        anchorThreshold < ((iouMatrix [⟨1/2, 1/2, 1/10, 1/10⟩]
          [(1/10, 1/10), (1/10, 1/20), (1/2, 1/2)] 1 1).getD 0 []).getD j 0) ∧
      (kept.map (fun j => ((iouMatrix [⟨1/2, 1/2, 1/10, 1/10⟩]
        [(1/10, 1/10), (1/10, 1/20), (1/2, 1/2)] 1 1).getD 0 []).getD j 0)).Pairwise
        (fun u v : ℚ => v ≤ u) ∧
      ((((iouMatrix [⟨1/2, 1/2, 1/10, 1/10⟩] [(1/10, 1/10), (1/10, 1/20), (1/2, 1/2)]
          1 1).map (assignRow (numK (iouMatrix [⟨1/2, 1/2, 1/10, 1/10⟩]
            [(1/10, 1/10), (1/10, 1/20), (1/2, 1/2)] 1 1)))).getD 0 []).countP
        (fun x => decide (x ≠ -1))) =
        max (acceptCount ((iouMatrix [⟨1/2, 1/2, 1/10, 1/10⟩]
          [(1/10, 1/10), (1/10, 1/20), (1/2, 1/2)] 1 1).getD 0 [])) 1 :=
  C4_slot_structure [⟨1/2, 1/2, 1/10, 1/10⟩] [(1/10, 1/10), (1/10, 1/20), (1/2, 1/2)]
    1 1 _
    (get_best_anchor_isSome [⟨1/2, 1/2, 1/10, 1/10⟩]
      [(1/10, 1/10), (1/10, 1/20), (1/2, 1/2)] 1 1 (List.cons_ne_nil _ _))
    0 (by simp)
    (by norm_num [iouMatrix, compute_iou, acceptCount, anchorThreshold,
      List.countP, List.countP.go])

/-- C4 counterexample: the box accepts exactly 2 anchors (`k_accepted = 2 < 5`),
and its assignment `[0, 1, -1, -1, -1]` has exactly 2 non-sentinel slots — not
`min(k_accepted + 1, 5) = 3` as the claim states. -/
theorem C4_count_counterexample :
    acceptCount ((iouMatrix [⟨1/2, 1/2, 1/10, 1/10⟩]
      [(1/10, 1/10), (1/10, 1/20), (1/2, 1/2)] 1 1).getD 0 []) = 2 ∧
    get_best_anchor [⟨1/2, 1/2, 1/10, 1/10⟩]
      [(1/10, 1/10), (1/10, 1/20), (1/2, 1/2)] 1 1 =
      some [[0, 1, -1, -1, -1]] ∧
    ¬ (([0, 1, -1, -1, -1] : List Int).countP (fun x => decide (x ≠ -1)) =
      min (2 + 1) 5) := by
  refine ⟨?_, ?_, ?_⟩ <;>
    norm_num [get_best_anchor, iouMatrix, compute_iou, numK, acceptCount,
      anchorThreshold, assignRow, rawRow, maskSlot, rankRow, rankRel,
      List.insertionSort, List.orderedInsert, List.enum, List.enumFrom,
      List.countP, List.countP.go, List.replicate]

/-- C5: every slot of every returned assignment is either the sentinel `-1` or a
valid 0-indexed anchor index in `[0, A)` — the entries are integer values and no
other value ever appears. -/
theorem C5_entries_valid (y : List Box) (a : List (ℚ × ℚ)) (w h : ℚ)
    (rows : List (List Int)) (hrows : get_best_anchor y a w h = some rows) :
    ∀ row ∈ rows, ∀ x ∈ row, x = -1 ∨ (0 ≤ x ∧ x < (a.length : Int)) := by
  obtain ⟨hk, hrw⟩ := get_best_anchor_eq_some hrows
  intro row hrow x hx
  rw [hrw] at hrow
  rcases List.mem_map.1 hrow with ⟨r, hr, hrr⟩
  rw [← hrr] at hx
  have hmem := assignRow_entries hx
  rw [iouMatrix_row_length hr] at hmem
  exact hmem

/-- Witness for C5 at a concrete input: slot 0 of the concrete assignment row
`[0, -1, -1, -1, -1]` is a valid catalog index. -/
theorem C5_entries_valid_witness :
    (0 : Int) = -1 ∨ ((0 : Int) ≤ 0 ∧
      (0 : Int) < (([((1 : ℚ)/10, (1 : ℚ)/10)] : List (ℚ × ℚ)).length : Int)) :=
  C5_entries_valid [⟨1/2, 1/2, 1/10, 1/10⟩] [(1/10, 1/10)] 1 1 _
    (get_best_anchor_isSome [⟨1/2, 1/2, 1/10, 1/10⟩] [(1/10, 1/10)] 1 1
      (List.cons_ne_nil _ _))
    [0, -1, -1, -1, -1]
    (by norm_num [iouMatrix, compute_iou, numK, acceptCount, anchorThreshold,
      assignRow, rawRow, maskSlot, rankRow, rankRel, List.insertionSort,
      List.orderedInsert, List.enum, List.enumFrom, List.countP, List.countP.go,
      List.replicate])
    0 (by norm_num)

/-- C7: zero ground-truth boxes are legal and raise no error: the IoU matrix and
the anchor assignment are empty, and padding the empty result yields `max_count`
pad values. -/
theorem C7_empty_boxes {α : Type} (a : List (ℚ × ℚ)) (w h : ℚ) (n : Nat) (p : α)
    (ha : a ≠ []) :
    iouMatrix [] a w h = [] ∧
    get_best_anchor [] a w h = some [] ∧
    pad_max_instances ([] : List α) n p = List.replicate n p := by
  refine ⟨rfl, ?_, ?_⟩
  · rw [get_best_anchor_isSome [] a w h ha]
    rfl
  · unfold pad_max_instances
    rw [if_neg (by simp)]
    simp

/-- Witness for C7 at a concrete input. -/
theorem C7_empty_boxes_witness :
    iouMatrix [] [(1/10, 1/10)] 1 1 = [] ∧
    get_best_anchor [] [(1/10, 1/10)] 1 1 = some [] ∧
    pad_max_instances ([] : List Int) 3 0 = List.replicate 3 0 :=
  C7_empty_boxes [(1/10, 1/10)] 1 1 3 0 (List.cons_ne_nil _ _)

/-- C8: the anchor assignment depends only on the widths and heights of the boxes,
not on their centers: box lists that agree on `(w, h)` componentwise produce
identical outputs, because every anchor is compared against a box placed at the
same center as the ground-truth box. -/
theorem C8_center_independent (y1 y2 : List Box) (a : List (ℚ × ℚ)) (w h : ℚ)
    (hwh : y1.map (fun b => (b.w, b.h)) = y2.map (fun b => (b.w, b.h))) :
    get_best_anchor y1 a w h = get_best_anchor y2 a w h := by
  unfold get_best_anchor
  rw [iouMatrix_wh_only a w h hwh]

/-- Witness for C8 at a concrete input: same shapes, different centers. -/
theorem C8_center_independent_witness :
    get_best_anchor [⟨1/2, 1/2, 1/10, 1/10⟩] [(1/10, 1/10)] 1 1 =
      get_best_anchor [⟨1/4, 3/4, 1/10, 1/10⟩] [(1/10, 1/10)] 1 1 :=
  C8_center_independent [⟨1/2, 1/2, 1/10, 1/10⟩] [⟨1/4, 3/4, 1/10, 1/10⟩]
    [(1/10, 1/10)] 1 1 rfl

end YoloSpec
